import Mathlib

/-!
Shallow embedding of `src/python/hash_difficulty.py`: a proof-of-work style
scanner that hashes `prefix ++ str(nonce)` with SHA-256 for nonce in
`range(64)` and collects the (nonce, hexdigest) pairs whose digest value,
parsed as a base-16 integer, is strictly below a hardcoded 256-bit target.

Machine words are modelled as `Nat` kept below `2^32` by explicit masking,
bytes as `Nat` below `256`, byte strings as `List Nat`, and Python strings
as Lean `String`.
-/

namespace HashDifficulty

/-- 32-bit wrap-around mask. -/
def mask32 : Nat := 4294967296

/-- Addition modulo `2^32`, the wrap-around `+` of 32-bit words. -/
def add32 (x y : Nat) : Nat := (x + y) % mask32

/-- Right rotation of a 32-bit word by `n` places (input assumed `< 2^32`). -/
def rotr (n x : Nat) : Nat := (x >>> n) ||| ((x <<< (32 - n)) % mask32)

/-- Bitwise complement on 32 bits, as xor with the all-ones word. -/
def not32 (x : Nat) : Nat := x ^^^ 4294967295

/-- SHA-256 `Ch(x,y,z) = (x ∧ y) ⊕ (¬x ∧ z)`. -/
def ch (x y z : Nat) : Nat := (x &&& y) ^^^ (not32 x &&& z)

/-- SHA-256 `Maj(x,y,z) = (x ∧ y) ⊕ (x ∧ z) ⊕ (y ∧ z)`. -/
def maj (x y z : Nat) : Nat := (x &&& y) ^^^ (x &&& z) ^^^ (y &&& z)

/-- SHA-256 big sigma 0. -/
def bsig0 (x : Nat) : Nat := rotr 2 x ^^^ rotr 13 x ^^^ rotr 22 x

/-- SHA-256 big sigma 1. -/
def bsig1 (x : Nat) : Nat := rotr 6 x ^^^ rotr 11 x ^^^ rotr 25 x

/-- SHA-256 small sigma 0. -/
def ssig0 (x : Nat) : Nat := rotr 7 x ^^^ rotr 18 x ^^^ (x >>> 3)

/-- SHA-256 small sigma 1. -/
def ssig1 (x : Nat) : Nat := rotr 17 x ^^^ rotr 19 x ^^^ (x >>> 10)

/-- The 64 SHA-256 round constants (FIPS 180-4 §4.2.2, written in decimal). -/
def roundK : List Nat :=
  [1116352408, 1899447441, 3049323471, 3921009573, 961987163, 1508970993,
   2453635748, 2870763221, 3624381080, 310598401, 607225278, 1426881987,
   1925078388, 2162078206, 2614888103, 3248222580, 3835390401, 4022224774,
   264347078, 604807628, 770255983, 1249150122, 1555081692, 1996064986,
   2554220882, 2821834349, 2952996808, 3210313671, 3336571891, 3584528711,
   113926993, 338241895, 666307205, 773529912, 1294757372, 1396182291,
   1695183700, 1986661051, 2177026350, 2456956037, 2730485921, 2820302411,
   3259730800, 3345764771, 3516065817, 3600352804, 4094571909, 275423344,
   430227734, 506948616, 659060556, 883997877, 958139571, 1322822218,
   1537002063, 1747873779, 1955562222, 2024104815, 2227730452, 2361852424,
   2428436474, 2756734187, 3204031479, 3329325298]

/-- The working state of the SHA-256 compression function: eight 32-bit words. -/
structure Hash8 where
  a : Nat
  b : Nat
  c : Nat
  d : Nat
  e : Nat
  f : Nat
  g : Nat
  h : Nat
  deriving Repr, DecidableEq

/-- The SHA-256 initial hash value (FIPS 180-4 §5.3.3, written in decimal). -/
def initH : Hash8 :=
  { a := 1779033703, b := 3144134277, c := 1013904242, d := 2773480762,
    e := 1359893119, f := 2600822924, g := 528734635, h := 1541459225 }

/-- One round of the SHA-256 compression function on round constant and
message-schedule word `kw`. -/
def compressRound (s : Hash8) (kw : Nat × Nat) : Hash8 :=
  let t1 := (s.h + bsig1 s.e + ch s.e s.f s.g + kw.1 + kw.2) % mask32
  let t2 := (bsig0 s.a + maj s.a s.b s.c) % mask32
  { a := (t1 + t2) % mask32, b := s.a, c := s.b, d := s.c,
    e := (s.d + t1) % mask32, f := s.e, g := s.f, h := s.g }

/-- Pack big-endian groups of four bytes into 32-bit words. -/
def bytesToWords : List Nat → List Nat
  | b0 :: b1 :: b2 :: b3 :: rest =>
      (((b0 * 256 + b1) * 256 + b2) * 256 + b3) :: bytesToWords rest
  | _ => []

/-- Extend the (reversed) message schedule by `n` further words; the head of
`ws` is the most recently produced word. -/
def extendSchedule : Nat → List Nat → List Nat
  | 0, ws => ws
  | n + 1, ws =>
      let w2 := ws.getD 1 0
      let w7 := ws.getD 6 0
      let w15 := ws.getD 14 0
      let w16 := ws.getD 15 0
      extendSchedule n (add32 (add32 (ssig1 w2) w7) (add32 (ssig0 w15) w16) :: ws)

/-- The 64-word message schedule of one 64-byte block. -/
def schedule (block : List Nat) : List Nat :=
  (extendSchedule 48 (bytesToWords block).reverse).reverse

/-- Compress one 64-byte block into the running hash state. -/
def compressBlock (st : Hash8) (block : List Nat) : Hash8 :=
  let s := (roundK.zip (schedule block)).foldl compressRound st
  { a := add32 st.a s.a, b := add32 st.b s.b, c := add32 st.c s.c,
    d := add32 st.d s.d, e := add32 st.e s.e, f := add32 st.f s.f,
    g := add32 st.g s.g, h := add32 st.h s.h }

/-- Big-endian 8-byte encoding of a 64-bit value. -/
def be64 (n : Nat) : List Nat :=
  [(n >>> 56) &&& 255, (n >>> 48) &&& 255, (n >>> 40) &&& 255, (n >>> 32) &&& 255,
   (n >>> 24) &&& 255, (n >>> 16) &&& 255, (n >>> 8) &&& 255, n &&& 255]

/-- SHA-256 padding: append `0x80`, zero bytes up to 56 mod 64, then the
64-bit big-endian bit length. -/
def padBytes (msg : List Nat) : List Nat :=
  let L := msg.length
  let zeros := (119 - L % 64) % 64
  msg ++ (0x80 :: List.replicate zeros 0) ++ be64 ((8 * L) % 2 ^ 64)

/-- Split a byte string into 64-byte blocks, with fuel for termination. -/
def toBlocksAux : Nat → List Nat → List (List Nat)
  | 0, _ => []
  | _, [] => []
  | n + 1, bs => bs.take 64 :: toBlocksAux n (bs.drop 64)

/-- Split a byte string into 64-byte blocks. -/
def toBlocks (bs : List Nat) : List (List Nat) := toBlocksAux bs.length bs

/-- The eight 32-bit words of the SHA-256 digest of a byte string. -/
def sha256Words (msg : List Nat) : List Nat :=
  let fin := (toBlocks (padBytes msg)).foldl compressBlock initH
  [fin.a, fin.b, fin.c, fin.d, fin.e, fin.f, fin.g, fin.h]

/-- Big-endian 4-byte serialization of a 32-bit word. -/
def wordToBytes (w : Nat) : List Nat :=
  [(w >>> 24) &&& 255, (w >>> 16) &&& 255, (w >>> 8) &&& 255, w &&& 255]

/-- The 32 digest bytes of SHA-256, as `hashlib.sha256(msg).digest()`. -/
def sha256Bytes (msg : List Nat) : List Nat :=
  (sha256Words msg).flatMap wordToBytes

/-- The lowercase hexadecimal digit characters, in value order. -/
def hexAlphabet : List Char := "0123456789abcdef".data

/-- The lowercase hex character of a value below 16. -/
def hexChar (n : Nat) : Char := hexAlphabet.getD n '0'

/-- The two lowercase hex characters of one byte. -/
def byteToHexChars (b : Nat) : List Char := [hexChar (b / 16), hexChar (b % 16)]

/-- Lowercase hexadecimal rendering of a byte string, as Python
`hashlib.sha256(msg).hexdigest()` renders the digest. -/
def hexdigest (bs : List Nat) : String := String.mk (bs.flatMap byteToHexChars)

/-- UTF-8 encoding of one Unicode code point. -/
def utf8EncodeChar (c : Nat) : List Nat :=
  if c < 0x80 then [c]
  else if c < 0x800 then
    [0xC0 ||| (c >>> 6), 0x80 ||| (c &&& 0x3F)]
  else if c < 0x10000 then
    [0xE0 ||| (c >>> 12), 0x80 ||| ((c >>> 6) &&& 0x3F), 0x80 ||| (c &&& 0x3F)]
  else
    [0xF0 ||| (c >>> 18), 0x80 ||| ((c >>> 12) &&& 0x3F),
     0x80 ||| ((c >>> 6) &&& 0x3F), 0x80 ||| (c &&& 0x3F)]

/-- UTF-8 encoding of a string, as Python `str.encode("utf-8")`. -/
def utf8Encode (s : String) : List Nat :=
  s.data.flatMap (fun c => utf8EncodeChar c.toNat)

/-- The decimal digit characters of `n`, with fuel for termination. -/
def decimalAux : Nat → Nat → List Char
  | 0, _ => []
  | _, 0 => []
  | fuel + 1, n => decimalAux fuel (n / 10) ++ [hexChar (n % 10)]

/-- The decimal string representation of a natural number, as Python
`str(nonce)` (and `f"{nonce}"`) renders a nonnegative int. -/
def decimalRepr (n : Nat) : String :=
  if n = 0 then "0" else String.mk (decimalAux (n + 1) n)

/-- The value of one hexadecimal digit character, as Python `int(·, 16)`
accepts digits (both cases). -/
def hexCharVal (c : Char) : Option Nat :=
  if '0' ≤ c ∧ c ≤ '9' then some (c.toNat - '0'.toNat)
  else if 'a' ≤ c ∧ c ≤ 'f' then some (c.toNat - 'a'.toNat + 10)
  else if 'A' ≤ c ∧ c ≤ 'F' then some (c.toNat - 'A'.toNat + 10)
  else none

/-- Accumulating big-endian hex-digit evaluation; `none` on any non-digit. -/
def hexDigitsVal : List Char → Nat → Option Nat
  | [], acc => some acc
  | c :: cs, acc =>
    match hexCharVal c with
    | some v => hexDigitsVal cs (acc * 16 + v)
    | none => none

/-- Model of Python `int(s, 16)` on plain digit strings (no sign, no `0x`
marker, no underscores, no surrounding whitespace): the big-endian base-16
value, or `none` (a raised `ValueError`) when `s` is empty or has a
character that is not a hexadecimal digit. -/
def pyIntHex (s : String) : Option Nat :=
  if s.data.isEmpty then none else hexDigitsVal s.data 0

/-- Big-endian integer value of a byte string. -/
def beVal (bs : List Nat) : Nat := bs.foldl (fun a b => a * 256 + b) 0

/-- The bytes hashed for one nonce: UTF-8 of `f"{pfx}{nonce}"`
(`pfx` models the script's `prefix` variable). -/
def message (pfx : String) (nonce : Nat) : List Nat :=
  utf8Encode (pfx ++ decimalRepr nonce)

/-- The lowercase hexdigest of the single SHA-256 of the message of `nonce`. -/
def digestHex (pfx : String) (nonce : Nat) : String :=
  hexdigest (sha256Bytes (message pfx nonce))

/-- The integer value of the digest of `nonce`. -/
def digestVal (pfx : String) (nonce : Nat) : Nat :=
  beVal (sha256Bytes (message pfx nonce))

/-- The scan loop of the script, parameterized the way the spec's Scanner
contract is: `for nonce in range(count)` builds the message, hashes it,
parses the hexdigest back with `int(h, 16)` and appends `(nonce, h)` when
the parsed value is strictly below `tgt`.  The `none` branch mirrors a
`ValueError` from `int`, which cannot occur on a hexdigest. -/
def scanHits (pfx : String) (tgt : Nat) (count : Nat) : List (Nat × String) :=
  (List.range count).filterMap (fun nonce =>
    let h := digestHex pfx nonce
    match pyIntHex h with
    | some v => if v < tgt then some (nonce, h) else none
    | none => none)

/-- The script's hardcoded `target_hex` constant. -/
def target_hex : String :=
  "0fffffffffffffffffffffffffffffffffffffffffffffffffffffffffffffff"

/-- The script's `target = int(target_hex, 16)`; the parse succeeds, so the
`getD` default is never taken. -/
def target : Nat := (pyIntHex target_hex).getD 0

/-- The script's `prefix = "jesse"` constant. -/
def jesse : String := "jesse"

/-- The script's `hits` list after the loop over `range(64)`. -/
def hits : List (Nat × String) := scanHits jesse target 64

/-- Right-aligned width-2 decimal rendering, as Python `f"{n:2d}"`. -/
def formatNonce2 (n : Nat) : String :=
  let s := decimalRepr n
  if s.length < 2 then " " ++ s else s

/-- One printed hit line: `f"  nonce={n:2d}  hash=0x{hx}"`. -/
def hitLine (p : Nat × String) : String :=
  "  nonce=" ++ formatNonce2 p.1 ++ "  hash=0x" ++ p.2

/-- The script's first printed line. -/
def trialsLine : String := "Trials: 64, Target: 0x" ++ target_hex

/-- The script's second printed line (the parenthetical is the script's
literal comment text about the expected hit count). -/
def hitsLine : String :=
  "Hits: " ++ decimalRepr hits.length ++ " (期待值約 64 * 1/16 = 4)"

/-- Everything the script writes to stdout, one line per list entry. -/
def programOutput : List String :=
  trialsLine :: hitsLine :: hits.map hitLine

/-- Modelled from the spec: the spec's Scanner contract and §7 error design
take `target` (a hex string) and `count` as inputs and fail with
`InvalidInput` — aborting with no scan output — when the target hex string
is malformed or `count` is negative; the script under `src/` hardcodes a
well-formed target and `count = 64`, so this parameterized entry point and
its error paths exist only in the spec.  On valid inputs it prints the
summary line, the hit-count line, and one line per hit, as the script does. -/
def runScanner (targetHex pfx : String) (count : Int) : Except String (List String) :=
  match pyIntHex targetHex with
  | none => Except.error "InvalidInput: malformed target hex"
  | some tgt =>
    if count < 0 then Except.error "InvalidInput: negative count"
    else
      let hs := scanHits pfx tgt count.toNat
      Except.ok (("Trials: " ++ decimalRepr count.toNat ++ ", Target: 0x" ++ targetHex)
        :: ("Hits: " ++ decimalRepr hs.length) :: hs.map hitLine)

/-- The 32-byte string whose big-endian value is the hardcoded target and
whose hex rendering is `target_hex`. -/
def targetBytes : List Nat := 15 :: List.replicate 31 255

/-! Basic facts about the hex rendering, the hex parse, and digest shape. -/

/-- Parsing the hex character of a value below 16 recovers the value. -/
theorem hexCharVal_hexChar : ∀ n < 16, hexCharVal (hexChar n) = some n := by decide

/-- Every byte renders to exactly two hex characters. -/
theorem byteToHexChars_length (b : Nat) : (byteToHexChars b).length = 2 := rfl

/-- A rendered byte string has two hex characters per byte. -/
theorem hexChars_length (bs : List Nat) :
    (bs.flatMap byteToHexChars).length = 2 * bs.length := by
  induction bs with
  | nil => rfl
  | cons b bs ih =>
    simp only [List.flatMap_cons, List.length_append, ih, byteToHexChars_length,
      List.length_cons]
    omega

/-- Accumulator form of the big-endian byte value. -/
theorem beVal_foldl (bs : List Nat) :
    ∀ acc, bs.foldl (fun a b => a * 256 + b) acc = acc * 256 ^ bs.length + beVal bs := by
  induction bs with
  | nil => intro acc; simp [beVal]
  | cons b bs ih =>
    intro acc
    have h2 : beVal (b :: bs) = b * 256 ^ bs.length + beVal bs := by
      simp only [beVal, List.foldl_cons, Nat.zero_mul, Nat.zero_add]
      exact ih b
    simp only [List.foldl_cons, List.length_cons, ih (acc * 256 + b), h2]
    ring

/-- The big-endian value of a `cons`. -/
theorem beVal_cons (b : Nat) (bs : List Nat) :
    beVal (b :: bs) = b * 256 ^ bs.length + beVal bs := by
  simpa [beVal] using beVal_foldl bs b

/-- The big-endian value of an all-below-256 byte string is below
`256 ^ length`. -/
theorem beVal_lt (bs : List Nat) (h : ∀ b ∈ bs, b < 256) :
    beVal bs < 256 ^ bs.length := by
  induction bs with
  | nil => simp [beVal]
  | cons b bs ih =>
    have hb : b < 256 := h b (List.mem_cons_self b bs)
    have hr : beVal bs < 256 ^ bs.length := ih (fun x hx => h x (List.mem_cons_of_mem b hx))
    calc beVal (b :: bs) = b * 256 ^ bs.length + beVal bs := beVal_cons b bs
    _ < b * 256 ^ bs.length + 256 ^ bs.length := by omega
    _ = (b + 1) * 256 ^ bs.length := by ring
    _ ≤ 256 * 256 ^ bs.length := Nat.mul_le_mul_right _ hb
    _ = 256 ^ (b :: bs).length := by rw [List.length_cons]; ring

/-- Hex evaluation of the rendering of a byte string accumulates its
big-endian value. -/
theorem hexDigitsVal_hexChars (bs : List Nat) (h : ∀ b ∈ bs, b < 256) :
    ∀ acc, hexDigitsVal (bs.flatMap byteToHexChars) acc =
      some (bs.foldl (fun a b => a * 256 + b) acc) := by
  induction bs with
  | nil => intro acc; rfl
  | cons b bs ih =>
    intro acc
    have hb : b < 256 := h b (List.mem_cons_self b bs)
    have h1 : b / 16 < 16 := Nat.div_lt_of_lt_mul (by omega)
    have h2 : b % 16 < 16 := Nat.mod_lt _ (by norm_num)
    have ih' := ih (fun x hx => h x (List.mem_cons_of_mem b hx))
    have hsplit : (b :: bs).flatMap byteToHexChars =
        hexChar (b / 16) :: hexChar (b % 16) :: bs.flatMap byteToHexChars := rfl
    rw [hsplit]
    simp only [hexDigitsVal, hexCharVal_hexChar _ h1, hexCharVal_hexChar _ h2]
    rw [show (acc * 16 + b / 16) * 16 + b % 16 = acc * 256 + b from by omega]
    rw [ih', List.foldl_cons]

/-- `int(h, 16)` on the hex rendering of a nonempty byte string returns its
big-endian integer value. -/
theorem pyIntHex_hexdigest (bs : List Nat) (hne : bs ≠ []) (h : ∀ b ∈ bs, b < 256) :
    pyIntHex (hexdigest bs) = some (beVal bs) := by
  obtain ⟨b, bs', rfl⟩ := List.exists_cons_of_ne_nil hne
  have hv := hexDigitsVal_hexChars (b :: bs') h 0
  have hsplit : (b :: bs').flatMap byteToHexChars =
      hexChar (b / 16) :: hexChar (b % 16) :: bs'.flatMap byteToHexChars := rfl
  show (if ((b :: bs').flatMap byteToHexChars).isEmpty then none
      else hexDigitsVal ((b :: bs').flatMap byteToHexChars) 0) = some (beVal (b :: bs'))
  rw [hsplit, List.isEmpty_cons, if_neg (by simp), ← hsplit, hv]
  simp [beVal]

/-- The SHA-256 word list always has eight entries. -/
theorem sha256Words_length (m : List Nat) : (sha256Words m).length = 8 := rfl

/-- Every byte of a serialized word is below 256. -/
theorem wordToBytes_lt (w : Nat) : ∀ b ∈ wordToBytes w, b < 256 := by
  intro b hb
  simp only [wordToBytes, List.mem_cons, List.not_mem_nil, or_false] at hb
  rcases hb with h | h | h | h <;> subst h <;>
    exact Nat.lt_succ_of_le Nat.and_le_right

/-- The SHA-256 digest always has 32 bytes. -/
theorem sha256Bytes_length (m : List Nat) : (sha256Bytes m).length = 32 := rfl

/-- Every byte of a SHA-256 digest is below 256. -/
theorem sha256Bytes_lt (m : List Nat) : ∀ b ∈ sha256Bytes m, b < 256 := by
  intro b hb
  simp only [sha256Bytes, List.mem_flatMap] at hb
  obtain ⟨w, _, hw⟩ := hb
  exact wordToBytes_lt w b hw

/-- A SHA-256 digest is never the empty byte string. -/
theorem sha256Bytes_ne_nil (m : List Nat) : sha256Bytes m ≠ [] := by
  intro h
  have := sha256Bytes_length m
  rw [h] at this
  simp at this

/-! Characterization of the scan loop. -/

/-- A `filterMap` whose step keeps exactly the elements satisfying `p` is the
`map` of the `filter`. -/
theorem filterMap_ite {α β : Type} (l : List α) (p : α → Prop) [DecidablePred p] (g : α → β) :
    (l.filterMap fun a => if p a then some (g a) else none) =
      (l.filter fun a => decide (p a)).map g := by
  induction l with
  | nil => rfl
  | cons a l ih =>
    by_cases h : p a <;> simp [List.filterMap_cons, List.filter_cons, h, ih]

/-- The body of the scan loop in closed form: parsing the hexdigest back
cannot fail and returns the digest's integer value. -/
theorem scan_step (pfx : String) (tgt n : Nat) :
    (match pyIntHex (digestHex pfx n) with
      | some v => if v < tgt then some (n, digestHex pfx n) else none
      | none => none) =
      if digestVal pfx n < tgt then some (n, digestHex pfx n) else none := by
  rw [show pyIntHex (digestHex pfx n) = some (digestVal pfx n) from
    pyIntHex_hexdigest _ (sha256Bytes_ne_nil _) (sha256Bytes_lt _)]

/-- The scan is the ordered filter of the nonce range by the hit predicate,
paired with the digest. -/
theorem scanHits_eq (pfx : String) (tgt count : Nat) :
    scanHits pfx tgt count =
      ((List.range count).filter fun n => decide (digestVal pfx n < tgt)).map
        fun n => (n, digestHex pfx n) := by
  simp only [scanHits]
  rw [show (fun nonce => match pyIntHex (digestHex pfx nonce) with
      | some v => if v < tgt then some (nonce, digestHex pfx nonce) else none
      | none => none) =
      fun n => if digestVal pfx n < tgt then some (n, digestHex pfx n) else none from
    funext (scan_step pfx tgt)]
  exact filterMap_ite (List.range count) (fun n => digestVal pfx n < tgt) _

/-- The scan returns at most one hit per scanned nonce. -/
theorem scanHits_length_le (pfx : String) (tgt count : Nat) :
    (scanHits pfx tgt count).length ≤ count := by
  rw [scanHits_eq, List.length_map]
  calc ((List.range count).filter _).length
      ≤ (List.range count).length := (List.filter_sublist _).length_le
    _ = count := List.length_range count

set_option maxHeartbeats 8000000 in
/-- The concrete `hits` list of the script: nonces 0, 2, 3, 30, 47 and 48 of
the 64 scanned have a digest below the target (pinned golden values,
cross-checked against `sha256sum`). -/
theorem hits_eq :
    hits =
      [(0, "03cd34bd1813f6c4658024eaa97dd5da854d6e96547f914688fcbe78aca4b5f8"),
       (2, "07a17c6abc11dc0ae9e0695b0d6d3f0aecc1899ce18786c1f10d612ff65d40c5"),
       (3, "03f751560923b807dec90d1273478e5c79dd2792ab5642e26e74f46d4704bfde"),
       (30, "0bbc7bd57fb75b8bc5341d502b5fee98670da6e2d2e61979d582f2bbcf2338e0"),
       (47, "00867f286129a163dda556bfe9b2650e013c8b159f95d2f78298c7c8d480d379"),
       (48, "0baab60478180b43dcfa47c10c4e9939ca86e8bada147dac55cdb4a41bba337e")] := by
  decide

/-- The concrete stdout of the script, line by line. -/
theorem programOutput_eq :
    programOutput =
      ["Trials: 64, Target: 0x0fffffffffffffffffffffffffffffffffffffffffffffffffffffffffffffff",
       "Hits: 6 (期待值約 64 * 1/16 = 4)",
       "  nonce= 0  hash=0x03cd34bd1813f6c4658024eaa97dd5da854d6e96547f914688fcbe78aca4b5f8",
       "  nonce= 2  hash=0x07a17c6abc11dc0ae9e0695b0d6d3f0aecc1899ce18786c1f10d612ff65d40c5",
       "  nonce= 3  hash=0x03f751560923b807dec90d1273478e5c79dd2792ab5642e26e74f46d4704bfde",
       "  nonce=30  hash=0x0bbc7bd57fb75b8bc5341d502b5fee98670da6e2d2e61979d582f2bbcf2338e0",
       "  nonce=47  hash=0x00867f286129a163dda556bfe9b2650e013c8b159f95d2f78298c7c8d480d379",
       "  nonce=48  hash=0x0baab60478180b43dcfa47c10c4e9939ca86e8bada147dac55cdb4a41bba337e"] := by
  unfold programOutput hitsLine
  rw [hits_eq]
  decide

/-! Injectivity of the big-endian value on bounded byte strings, and the
arithmetic of the leading-nibble interval. -/

/-- Quotient-remainder decomposition at a positive modulus is unique. -/
theorem split_unique (K b1 r1 b2 r2 : Nat) (hK : 0 < K) (h1 : r1 < K) (h2 : r2 < K)
    (heq : b1 * K + r1 = b2 * K + r2) : b1 = b2 ∧ r1 = r2 := by
  have hb : b1 = b2 := by
    have e1 : (b1 * K + r1) / K = b1 := by
      rw [Nat.mul_comm b1 K, Nat.mul_add_div hK, Nat.div_eq_of_lt h1, Nat.add_zero]
    have e2 : (b2 * K + r2) / K = b2 := by
      rw [Nat.mul_comm b2 K, Nat.mul_add_div hK, Nat.div_eq_of_lt h2, Nat.add_zero]
    rw [← e1, ← e2, heq]
  subst hb
  exact ⟨rfl, Nat.add_left_cancel heq⟩

/-- Equal-length byte strings with bytes below 256 and the same big-endian
value are equal. -/
theorem beVal_inj : ∀ bs1 bs2 : List Nat, bs1.length = bs2.length →
    (∀ b ∈ bs1, b < 256) → (∀ b ∈ bs2, b < 256) → beVal bs1 = beVal bs2 → bs1 = bs2 := by
  intro bs1
  induction bs1 with
  | nil =>
    intro bs2 hlen _ _ _
    cases bs2 with
    | nil => rfl
    | cons b t => simp at hlen
  | cons b1 t1 ih =>
    intro bs2 hlen hb1 hb2 hval
    cases bs2 with
    | nil => simp at hlen
    | cons b2 t2 =>
      have hlen' : t1.length = t2.length := by simpa using hlen
      rw [beVal_cons, beVal_cons, hlen'] at hval
      have hK : (0 : Nat) < 256 ^ t2.length := pow_pos (by norm_num) _
      have ht1 : beVal t1 < 256 ^ t2.length :=
        hlen' ▸ beVal_lt t1 (fun x hx => hb1 x (List.mem_cons_of_mem _ hx))
      have ht2 : beVal t2 < 256 ^ t2.length :=
        beVal_lt t2 (fun x hx => hb2 x (List.mem_cons_of_mem _ hx))
      obtain ⟨hb, hr⟩ := split_unique _ _ _ _ _ hK ht1 ht2 hval
      rw [hb, ih t2 hlen' (fun x hx => hb1 x (List.mem_cons_of_mem _ hx))
        (fun x hx => hb2 x (List.mem_cons_of_mem _ hx)) hr]

/-- On `[0, 16M)` split as `b * M + r` with `r < M`, being strictly below
`16M - 1` is having `b < 16` while not being exactly `16M - 1`. -/
theorem interval_split (M b r : Nat) (hM : 0 < M) (hr : r < M) :
    b * M + r < 16 * M - 1 ↔ (b < 16 ∧ b * M + r ≠ 16 * M - 1) := by
  constructor
  · intro hlt
    refine ⟨?_, Nat.ne_of_lt hlt⟩
    by_contra hge
    push_neg at hge
    have h3 : 16 * M ≤ b * M + r :=
      le_trans (Nat.mul_le_mul_right M hge) (Nat.le_add_right _ _)
    have h5 : 16 * M < 16 * M - 1 := lt_of_le_of_lt h3 hlt
    exact absurd (lt_of_lt_of_le h5 (Nat.sub_le _ _)) (lt_irrefl _)
  · rintro ⟨h16, hne⟩
    have h1 : b * M ≤ 15 * M := Nat.mul_le_mul_right M (by omega)
    have h2 : r ≤ M - 1 := Nat.le_sub_one_of_lt hr
    have h3 : b * M + r ≤ 15 * M + (M - 1) := Nat.add_le_add h1 h2
    have h4 : 15 * M + (M - 1) = 16 * M - 1 := by omega
    exact lt_of_le_of_ne (h4 ▸ h3) hne

/-- Membership in the scan: `(n, h)` is produced exactly when `n` is in the
scanned range, its digest value is below the target, and `h` is its digest. -/
theorem mem_scanHits (pfx : String) (tgt count n : Nat) (h : String) :
    ((n, h) ∈ scanHits pfx tgt count) ↔
      (n < count ∧ digestVal pfx n < tgt ∧ h = digestHex pfx n) := by
  rw [scanHits_eq]
  simp only [List.mem_map, List.mem_filter, List.mem_range, decide_eq_true_eq]
  constructor
  · rintro ⟨a, ⟨⟨ha1, ha2⟩, heq⟩⟩
    have h1 : a = n := congrArg Prod.fst heq
    subst h1
    have h2 : digestHex pfx a = h := congrArg Prod.snd heq
    exact ⟨ha1, ha2, h2.symm⟩
  · rintro ⟨h1, h2, rfl⟩
    exact ⟨n, ⟨⟨h1, h2⟩, rfl⟩⟩

/-- The first components of the scan are the nonce range filtered by the hit
predicate. -/
theorem scanHits_map_fst (pfx : String) (tgt count : Nat) :
    (scanHits pfx tgt count).map Prod.fst =
      (List.range count).filter fun n => decide (digestVal pfx n < tgt) := by
  rw [scanHits_eq, List.map_map]
  exact List.map_id _

/-! The claim theorems. -/

/-- C1: for every prefix, target and count, the scanner returns exactly the
ordered list of (nonce, digest) pairs for nonce = 0..count-1 whose digest
value is strictly below the target — in ascending nonce order, and with a
pair present if and only if its nonce is in range and hits, so no nonce is
skipped by early termination. -/
theorem scan_exact (pfx : String) (tgt count : Nat) :
    scanHits pfx tgt count =
      ((List.range count).filter fun n => decide (digestVal pfx n < tgt)).map
        (fun n => (n, digestHex pfx n)) ∧
    ((scanHits pfx tgt count).map Prod.fst).Pairwise (· < ·) ∧
    (∀ n h, (n, h) ∈ scanHits pfx tgt count ↔
      (n < count ∧ digestVal pfx n < tgt ∧ h = digestHex pfx n)) := by
  refine ⟨scanHits_eq pfx tgt count, ?_, fun n h => mem_scanHits pfx tgt count n h⟩
  rw [scanHits_map_fst]
  exact (List.pairwise_lt_range count).sublist (List.filter_sublist _)

/-- C2: the hashed message of a nonce is exactly the UTF-8 bytes of the
prefix followed by the decimal representation of the nonce; the digest is a
single SHA-256 of it, rendered as a 64-character string over the lowercase
hex alphabet; and parsing that string big-endian in base 16 gives exactly
the digest's integer value, the one the comparison uses. -/
theorem digest_canonical (pfx : String) (n : Nat) :
    message pfx n = utf8Encode (pfx ++ decimalRepr n) ∧
    digestHex pfx n = hexdigest (sha256Bytes (message pfx n)) ∧
    (digestHex pfx n).length = 64 ∧
    (∀ c ∈ (digestHex pfx n).data, c ∈ hexAlphabet) ∧
    pyIntHex (digestHex pfx n) = some (digestVal pfx n) := by
  refine ⟨rfl, rfl, ?_, ?_, pyIntHex_hexdigest _ (sha256Bytes_ne_nil _) (sha256Bytes_lt _)⟩
  · have h : (digestHex pfx n).length =
        ((sha256Bytes (message pfx n)).flatMap byteToHexChars).length := rfl
    rw [h, hexChars_length, sha256Bytes_length]
  · intro c hc
    have hc' : c ∈ (sha256Bytes (message pfx n)).flatMap byteToHexChars := hc
    rw [List.mem_flatMap] at hc'
    obtain ⟨b, hb, hcb⟩ := hc'
    have hblt : b < 256 := sha256Bytes_lt _ b hb
    have h16 : ∀ i < 16, hexChar i ∈ hexAlphabet := by decide
    simp only [byteToHexChars, List.mem_cons, List.not_mem_nil, or_false] at hcb
    rcases hcb with rfl | rfl
    · exact h16 _ (Nat.div_lt_of_lt_mul (by omega))
    · exact h16 _ (Nat.mod_lt _ (by norm_num))

/-- C3: with the spec's parameterized entry point, a malformed target hex
string fails with the descriptive InvalidInput error and a negative count
fails with an InvalidInput error; an `Except.error` result aborts the run
with no scan output. -/
theorem invalid_input (targetHex pfx : String) (c : Int) :
    (pyIntHex targetHex = none →
      runScanner targetHex pfx c = Except.error "InvalidInput: malformed target hex") ∧
    (c < 0 → ∃ e, runScanner targetHex pfx c = Except.error e) := by
  constructor
  · intro h
    simp [runScanner, h]
  · intro hc
    cases hp : pyIntHex targetHex with
    | none => exact ⟨"InvalidInput: malformed target hex", by simp [runScanner, hp]⟩
    | some t =>
      refine ⟨"InvalidInput: negative count", ?_⟩
      simp only [runScanner, hp]
      rw [if_pos hc]

/-- C3 witness: the concrete malformed target `"xyz"` and the concrete
negative count `-1` both abort with an InvalidInput error. -/
theorem invalid_input_witness :
    (pyIntHex "xyz" = none ∧
      runScanner "xyz" "jesse" 64 = Except.error "InvalidInput: malformed target hex") ∧
    ((-1 : Int) < 0 ∧ ∃ e, runScanner target_hex "jesse" (-1) = Except.error e) :=
  ⟨⟨by decide, (invalid_input "xyz" "jesse" 64).1 (by decide)⟩,
   ⟨by decide, (invalid_input target_hex "jesse" (-1)).2 (by decide)⟩⟩

/-- C4 counterexample: the third stdout line of the script is not of the
claimed shape `nonce=<int> hash=0x<64-hex-chars>` — the script indents each
hit line by two spaces, right-aligns the nonce to width 2 and separates the
fields by two spaces. -/
theorem output_format_cex :
    programOutput.getD 2 "" =
      "  nonce= 0  hash=0x03cd34bd1813f6c4658024eaa97dd5da854d6e96547f914688fcbe78aca4b5f8" ∧
    programOutput.getD 2 "" ≠
      "nonce=0 hash=0x03cd34bd1813f6c4658024eaa97dd5da854d6e96547f914688fcbe78aca4b5f8" := by
  rw [programOutput_eq]
  constructor
  · rfl
  · decide

/-- C4 (amended): stdout is exactly one summary line with the trial count
and the target hex, then one line with the hit count, then one line per hit
in order — each hit line formatted as two spaces, `nonce=`, the nonce
right-aligned to width 2, two spaces, then `hash=0x` and the 64 hex
characters of the digest; concretely, the pinned golden output. -/
theorem output_structure :
    programOutput = trialsLine :: hitsLine :: hits.map hitLine ∧
    trialsLine = "Trials: 64, Target: 0x" ++ target_hex ∧
    hits.map hitLine =
      hits.map (fun p => "  nonce=" ++ formatNonce2 p.1 ++ "  hash=0x" ++ p.2) ∧
    programOutput =
      ["Trials: 64, Target: 0x0fffffffffffffffffffffffffffffffffffffffffffffffffffffffffffffff",
       "Hits: 6 (期待值約 64 * 1/16 = 4)",
       "  nonce= 0  hash=0x03cd34bd1813f6c4658024eaa97dd5da854d6e96547f914688fcbe78aca4b5f8",
       "  nonce= 2  hash=0x07a17c6abc11dc0ae9e0695b0d6d3f0aecc1899ce18786c1f10d612ff65d40c5",
       "  nonce= 3  hash=0x03f751560923b807dec90d1273478e5c79dd2792ab5642e26e74f46d4704bfde",
       "  nonce=30  hash=0x0bbc7bd57fb75b8bc5341d502b5fee98670da6e2d2e61979d582f2bbcf2338e0",
       "  nonce=47  hash=0x00867f286129a163dda556bfe9b2650e013c8b159f95d2f78298c7c8d480d379",
       "  nonce=48  hash=0x0baab60478180b43dcfa47c10c4e9939ca86e8bada147dac55cdb4a41bba337e"] :=
  ⟨rfl, rfl, rfl, programOutput_eq⟩

/-- C5: for a fixed prefix and count, the number of hits is monotonically
non-decreasing in the target. -/
theorem hit_count_monotone (pfx : String) (count t1 t2 : Nat) (hle : t1 ≤ t2) :
    (scanHits pfx t1 count).length ≤ (scanHits pfx t2 count).length := by
  rw [scanHits_eq, scanHits_eq, List.length_map, List.length_map]
  refine (List.monotone_filter_right _ ?_).length_le
  intro a hp
  simp only [decide_eq_true_eq] at hp ⊢
  omega

/-- C5 witness: the monotone bound at the concrete targets `2^252 ≤ 2^256`,
prefix `"jesse"` and count 4. -/
theorem hit_count_monotone_witness :
    2 ^ 252 ≤ 2 ^ 256 ∧
    (scanHits "jesse" (2 ^ 252) 4).length ≤ (scanHits "jesse" (2 ^ 256) 4).length :=
  ⟨by norm_num, hit_count_monotone "jesse" 4 (2 ^ 252) (2 ^ 256) (by norm_num)⟩

/-- C6: the scan is deterministic — it is a pure function of prefix, target
and count, so equal inputs give identical hit sequences and identical
digests for every nonce; and the digest of nonce 0 is reproducibly the
pinned constant. -/
theorem scan_deterministic :
    (∀ (p1 p2 : String) (t1 t2 c1 c2 : Nat), p1 = p2 → t1 = t2 → c1 = c2 →
      (scanHits p1 t1 c1 = scanHits p2 t2 c2 ∧
        ∀ n, digestHex p1 n = digestHex p2 n)) ∧
    digestHex jesse 0 =
      "03cd34bd1813f6c4658024eaa97dd5da854d6e96547f914688fcbe78aca4b5f8" := by
  constructor
  · rintro p1 p2 t1 t2 c1 c2 rfl rfl rfl
    exact ⟨rfl, fun n => rfl⟩
  · decide

/-- C6 witness: the determinism conclusions at the concrete inputs
prefix `"jesse"`, target 1, count 2 and nonce 5. -/
theorem scan_deterministic_witness :
    scanHits "jesse" 1 2 = scanHits "jesse" 1 2 ∧
    digestHex "jesse" 5 = digestHex "jesse" 5 :=
  ⟨(scan_deterministic.1 "jesse" "jesse" 1 1 2 2 rfl rfl rfl).1,
   (scan_deterministic.1 "jesse" "jesse" 1 1 2 2 rfl rfl rfl).2 5⟩

/-- C7: boundary behaviour — the scanned range is half-open, so nonce 0 and
nonce 63 are both processed (each appears in the result exactly when its
digest hits), and a scan with count 0 yields zero hits and no error. -/
theorem scan_boundary (pfx : String) (tgt : Nat) :
    scanHits pfx tgt 0 = [] ∧
    runScanner target_hex pfx 0 =
      Except.ok ["Trials: 0, Target: 0x" ++ target_hex, "Hits: 0"] ∧
    ((0, digestHex pfx 0) ∈ scanHits pfx tgt 64 ↔ digestVal pfx 0 < tgt) ∧
    ((63, digestHex pfx 63) ∈ scanHits pfx tgt 64 ↔ digestVal pfx 63 < tgt) := by
  refine ⟨rfl, rfl, ?_, ?_⟩
  · rw [mem_scanHits]
    simp
  · rw [mem_scanHits]
    simp

/-- C9: the scan is a single bounded loop over exactly the 64 nonces of
`range(64)` — every produced nonce comes from that range in order, at most
64 hits are produced, and the embedded scanner is a total function (it is a
Lean `def` with no partiality), so the program always terminates. -/
theorem scan_bounded (pfx : String) (tgt : Nat) :
    ((scanHits pfx tgt 64).map Prod.fst).Sublist (List.range 64) ∧
    (List.range 64).length = 64 ∧
    (scanHits pfx tgt 64).length ≤ 64 := by
  refine ⟨?_, List.length_range 64, scanHits_length_le pfx tgt 64⟩
  rw [scanHits_map_fst]
  exact List.filter_sublist _

/-- C10: against the hardcoded target, a 32-byte digest's value is strictly
below the target exactly when its hex rendering begins with the character
`'0'` and is not the target's own hex string. -/
theorem target_leading_nibble (bs : List Nat) (hlen : bs.length = 32)
    (hb : ∀ b ∈ bs, b < 256) :
    beVal bs < target ↔
      ((hexdigest bs).data.head? = some '0' ∧ hexdigest bs ≠ target_hex) := by
  obtain ⟨b0, rest, rfl⟩ : ∃ b0 rest, bs = b0 :: rest := by
    cases bs with
    | nil => simp at hlen
    | cons a t => exact ⟨a, t, rfl⟩
  have hrest : rest.length = 31 := by simpa using hlen
  have hb0 : b0 < 256 := hb b0 (List.mem_cons_self _ _)
  have hbr : ∀ b ∈ rest, b < 256 := fun x hx => hb x (List.mem_cons_of_mem _ hx)
  have hM : beVal rest < 256 ^ 31 := hrest ▸ beVal_lt rest hbr
  have hcons : beVal (b0 :: rest) = b0 * 256 ^ 31 + beVal rest := by
    rw [beVal_cons, hrest]
  have htv : target = 16 * 256 ^ 31 - 1 := by decide
  have hdiv : b0 / 16 < 16 := Nat.div_lt_of_lt_mul (by omega)
  have harith : beVal (b0 :: rest) < target ↔
      (b0 < 16 ∧ beVal (b0 :: rest) ≠ target) := by
    rw [hcons, htv]
    exact interval_split (256 ^ 31) b0 (beVal rest) (pow_pos (by norm_num) _) hM
  have hhead : (hexdigest (b0 :: rest)).data.head? = some (hexChar (b0 / 16)) := rfl
  have hcz : ∀ i < 16, (hexChar i = '0' ↔ i = 0) := by decide
  have hh : ((hexdigest (b0 :: rest)).data.head? = some '0') ↔ b0 < 16 := by
    rw [hhead]
    simp only [Option.some.injEq]
    rw [hcz _ hdiv]
    omega
  have hne_iff : (hexdigest (b0 :: rest) ≠ target_hex) ↔ beVal (b0 :: rest) ≠ target := by
    constructor
    · intro hstr hval
      apply hstr
      have hbs : b0 :: rest = targetBytes := by
        apply beVal_inj
        · rw [hlen]
          decide
        · exact hb
        · decide
        · rw [hval]
          decide
      rw [hbs]
      decide
    · intro hval hstr
      apply hval
      have h1 := pyIntHex_hexdigest (b0 :: rest) (by simp) hb
      rw [hstr] at h1
      have h2 : pyIntHex target_hex = some target := rfl
      rw [h1] at h2
      exact Option.some.inj h2
  rw [harith, hh, hne_iff]

/-- C10 witness: the equivalence evaluated at the all-zero 32-byte string. -/
theorem target_leading_nibble_witness :
    (List.replicate 32 0).length = 32 ∧ (∀ b ∈ List.replicate 32 0, b < 256) ∧
    (beVal (List.replicate 32 0) < target ↔
      ((hexdigest (List.replicate 32 0)).data.head? = some '0' ∧
        hexdigest (List.replicate 32 0) ≠ target_hex)) :=
  ⟨by decide, by decide, target_leading_nibble _ (by decide) (by decide)⟩

/-- C8: for every scanned nonce, parsing the digest's hexadecimal string
back in base 16 yields exactly the digest's big-endian integer value — the
value the comparison against the target uses. -/
theorem digest_round_trip (pfx : String) (n : Nat) :
    pyIntHex (digestHex pfx n) = some (digestVal pfx n) ∧
    digestVal pfx n = beVal (sha256Bytes (message pfx n)) :=
  ⟨pyIntHex_hexdigest _ (sha256Bytes_ne_nil _) (sha256Bytes_lt _), rfl⟩

end HashDifficulty
